import Mathlib

/-!
Shallow embedding of the `resolvr` federated threshold-Schnorr signer module
(`modules/resolvr-server/src/lib.rs`, `modules/resolvr-server/src/db.rs`,
`modules/resolvr-common/src/lib.rs`) together with the fragments of its
dependencies that the verified claims depend on.

Modelling conventions:
- `Msg` stands for an `UnsignedEvent`; the event id (the message fingerprint,
  a collision-free hash of the event) is identified with the event itself.
- `Peer` is a fedimint `PeerId` (a `u16` in the source), widened to `Nat`.
- Field scalars of secp256k1 are `Nat`s below `curveOrder`; curve points are
  wrapped in `Point` and identified by their discrete logarithm with respect
  to the generator, which is a bijection on the cyclic group.
- The module database (a key-value store with prefix scans) is embedded as
  insertion-ordered association lists for the two keyed tables
  (`ResolvrNonceKey`, `ResolvrSignatureShareKey`) plus two `Option` singleton
  slots (`MessageNonceRequest`, `MessageSignRequest`).
- The FROST / nostr library calls whose outcome the module merely branches on
  (share verification, aggregation, Schnorr verification, publication) are an
  oracle parameter `FrostOracle`, so the control flow of the module is
  embedded exactly while the cryptography stays abstract.
-/

namespace Resolvr

/-- A byte of a wire encoding (value below 256). -/
abbrev Byte := Nat

/-- An `UnsignedEvent`, identified with its fingerprint (event id). -/
abbrev Msg := Nat

/-- A fedimint `PeerId` (`u16` in the source). -/
abbrev Peer := Nat

/-- A partial-signature scalar (`Scalar<Public, Zero>` inside
`ResolvrSignatureShare`). -/
abbrev SigShare := Nat

/-- A full Schnorr signature (the output of `combine_signature_shares`). -/
abbrev Sig := Nat

/-- Order of the secp256k1 scalar field. -/
def curveOrder : Nat :=
  0xFFFFFFFFFFFFFFFFFFFFFFFFFFFFFFFEBAAEDCE6AF48A03BBFD25E8CD0364141

/-- A secp256k1 curve point, identified by its discrete logarithm with
respect to the generator. -/
structure Point where
  dlog : Nat
deriving DecidableEq, Repr

/-- The source's `peer_id_to_scalar` (`resolvr-server/src/lib.rs:228`):
`(peer_id.to_usize() + 1) as u32` fed to `Scalar::from_non_zero_u32`.
A `PeerId` is a `u16`, so the addition never wraps the `u32` cast. -/
def peer_id_to_scalar (p : Peer) : Nat :=
  p + 1

/-- A FROST `NonceKeyPair` from the `schnorr_fun::musig` dependency: two
secret nonce scalars; the public nonce is the pair of corresponding points. -/
structure NonceKeyPair where
  secret1 : Nat
  secret2 : Nat
deriving DecidableEq, Repr

/-- The public half of a nonce pair (`NonceKeyPair::public`): the two points
with the secret scalars as discrete logarithms. -/
def NonceKeyPair.publicNonce (kp : NonceKeyPair) : Point × Point :=
  (⟨kp.secret1 % curveOrder⟩, ⟨kp.secret2 % curveOrder⟩)

/-- Big-endian 32-byte serialization of a scalar (`Scalar::to_bytes`). -/
def scalarToBytes (s : Nat) : List Byte :=
  (List.range 32).map (fun i => s / 256 ^ (31 - i) % 256)

/-- Big-endian interpretation of a byte string. -/
def bytesToNat (bs : List Byte) : Nat :=
  bs.foldl (fun acc b => acc * 256 + b) 0

/-- Embeds `Scalar::from_slice(..).non_zero()` on 32 bytes: succeeds exactly for a
canonical (below the group order) nonzero scalar. -/
def parseScalar (bs : List Byte) : Option Nat :=
  let n := bytesToNat bs
  if n ≠ 0 ∧ n < curveOrder then some n else none

/-- Embeds `NonceKeyPair::to_bytes` from the `schnorr_fun` dependency: the 64-byte
concatenation of the two 32-byte SECRET nonce scalars (the public points are
recomputed from them on deserialization). -/
def NonceKeyPair.to_bytes (kp : NonceKeyPair) : List Byte :=
  scalarToBytes kp.secret1 ++ scalarToBytes kp.secret2

/-- Embeds `NonceKeyPair::from_bytes` from the `schnorr_fun` dependency: parse two
secret scalars from 64 bytes; the public nonce is derived from the secrets.
This is the call used by `impl Decodable for ResolvrNonceKeyPair`
(`resolvr-common/src/lib.rs:115`), so the decoded store value carries the
secret halves (the signing path later retrieves its own secret nonce from
the store, which only works because of this). -/
def NonceKeyPair.from_bytes (bs : List Byte) : Option NonceKeyPair :=
  if bs.length = 64 then
    match parseScalar (bs.take 32), parseScalar (bs.drop 32) with
    | some r1, some r2 => some ⟨r1, r2⟩
    | _, _ => none
  else none

/-- Embeds `impl Encodable for ResolvrNonceKeyPair` (`resolvr-common/src/lib.rs:107`):
writes `self.0.to_bytes()` — the 64 bytes produced by
`NonceKeyPair::to_bytes`. -/
def ResolvrNonceKeyPair.consensus_encode (kp : NonceKeyPair) : List Byte :=
  kp.to_bytes

/-- Embeds `impl Decodable for ResolvrNonceKeyPair` (`resolvr-common/src/lib.rs:115`):
reads exactly 64 bytes and applies `NonceKeyPair::from_bytes`. -/
def ResolvrNonceKeyPair.consensus_decode (bs : List Byte) : Option NonceKeyPair :=
  NonceKeyPair.from_bytes bs

/-- The module's database state: the two keyed tables as insertion-ordered
association lists and the two singleton slots
(`resolvr-server/src/db.rs`). -/
structure RState where
  nonces : List ((Msg × Peer) × NonceKeyPair)
  shares : List ((Msg × Peer) × SigShare)
  nonceRequest : Option Msg
  signRequest : Option Msg
deriving DecidableEq, Repr

/-- The empty store of a fresh replica. -/
def RState.init : RState :=
  ⟨[], [], none, none⟩

/-- Embeds `ResolvrConsensusItem` (`resolvr-common/src/lib.rs:24`). -/
inductive ConsensusItem where
  | nonce (m : Msg) (kp : NonceKeyPair)
  | frostSigShare (m : Msg) (s : SigShare)
deriving DecidableEq, Repr

/-- Error outcomes of `process_consensus_item`: the three `bail!`/`Err`
returns (each message interpolates the offending peer id), plus `panicked`
for the `unwrap()` calls on the nostr publication path. -/
inductive RError where
  | duplicateNonce (p : Peer)
  | duplicateShare (p : Peer)
  | invalidShare (p : Peer)
  | panicked
deriving DecidableEq, Repr

/-- Observable side effects outside the store: a `send_event` call to the
nostr relay client with the signed artifact. -/
inductive Effect where
  | publish (m : Msg) (sig : Sig)
deriving DecidableEq, Repr

/-- Abstraction of the FROST and nostr library calls whose results the
module branches on. `verifyShare` is `frost.verify_signature_share` on the
session built from (message, session nonces); `combine` is
`frost.combine_signature_shares`; `schnorrVerify` is `frost.schnorr.verify`;
`sign` is `frost.sign`; `addSignatureOk` is whether
`UnsignedEvent::add_signature` returns `Ok`; `sendOk` is whether
`nostr_client.send_event` returns `Ok`. -/
structure FrostOracle where
  verifyShare : Msg → List (Nat × (Point × Point)) → Nat → SigShare → Bool
  combine : Msg → List (Nat × (Point × Point)) → List SigShare → Sig
  schnorrVerify : Msg → Sig → Bool
  sign : Msg → List (Nat × (Point × Point)) → Nat → NonceKeyPair → SigShare
  addSignatureOk : Msg → Sig → Bool
  sendOk : Msg → Sig → Bool

/-- The configuration fields the signing state machine reads
(`ResolvrConfigConsensus.threshold`, `ResolvrConfigPrivate.my_peer_id`). -/
structure Config where
  threshold : Nat
  myPeerId : Peer
deriving DecidableEq, Repr

/-- Insertion into a list sorted by a `Nat` key. -/
def insertSortedBy {α : Type} (key : α → Nat) (a : α) : List α → List α
  | [] => [a]
  | b :: rest =>
    if key a ≤ key b then a :: b :: rest else b :: insertSortedBy key a rest

/-- Insertion sort by a `Nat` key; the order in which a database prefix scan
returns its entries (ascending encoded key). -/
def sortBy {α : Type} (key : α → Nat) (l : List α) : List α :=
  l.foldr (insertSortedBy key) []

/-- The prefix scan `find_by_prefix(ResolvrNonceKeyMessagePrefix(msg))`:
all nonce entries for `m`, in ascending peer order (the encoded key order). -/
def nonceScan (st : RState) (m : Msg) : List (Peer × NonceKeyPair) :=
  sortBy (fun e => e.1)
    ((st.nonces.filter (fun e => e.1.1 == m)).map (fun e => (e.1.2, e.2)))

/-- The prefix scan `find_by_prefix(ResolvrSignatureShareKeyMessagePrefix(msg))`:
all share entries for `m`, in ascending peer order. -/
def shareScan (st : RState) (m : Msg) : List (Peer × SigShare) :=
  sortBy (fun e => e.1)
    ((st.shares.filter (fun e => e.1.1 == m)).map (fun e => (e.1.2, e.2)))

/-- Insertion into a `BTreeMap` represented as a key-sorted association
list: an equal key is overwritten. -/
def btreeInsert {α : Type} (k : Nat) (v : α) : List (Nat × α) → List (Nat × α)
  | [] => [(k, v)]
  | (k', v') :: rest =>
    if k < k' then (k, v) :: (k', v') :: rest
    else if k = k' then (k, v) :: rest
    else (k', v') :: btreeInsert k v rest

/-- Embeds `Resolvr::get_nonces` (`resolvr-server/src/lib.rs:560`): scan all nonce
entries for the message and build the `BTreeMap` keyed by
`peer_id_to_scalar` of the contributing peer. NOTE: every entry found is
kept — there is no truncation to the first `threshold` entries. -/
def get_nonces (st : RState) (m : Msg) : List (Nat × NonceKeyPair) :=
  (nonceScan st m).foldl (fun acc e => btreeInsert (peer_id_to_scalar e.1) e.2 acc) []

/-- The `session_nonces` map passed to `frost.start_sign_session`
(`resolvr-server/src/lib.rs:286` and `:389`): `get_nonces` with each nonce
replaced by its public half, keys unchanged. -/
def session_nonces (st : RState) (m : Msg) : List (Nat × (Point × Point)) :=
  (get_nonces st m).map (fun e => (e.1, e.2.publicNonce))

/-- Embeds `dbtx.insert_new_entry(&ResolvrNonceKey(msg, peer), &nonce)`
(`resolvr-server/src/lib.rs:341`). -/
def insertNonce (st : RState) (m : Msg) (p : Peer) (kp : NonceKeyPair) : RState :=
  { st with nonces := st.nonces ++ [((m, p), kp)] }

/-- Embeds `dbtx.insert_new_entry(&ResolvrSignatureShareKey(msg, peer), &share)`
(`resolvr-server/src/lib.rs:411`). -/
def insertShare (st : RState) (m : Msg) (p : Peer) (s : SigShare) : RState :=
  { st with shares := st.shares ++ [((m, p), s)] }

/-- The actions taken when the nonce count reaches the threshold
(`resolvr-server/src/lib.rs:351-363`): remove the `MessageNonceRequest`
slot unconditionally, and set `MessageSignRequest := msg` if this peer's
id appears among the scanned nonce entries. -/
def nonceQuorumActions (st : RState) (m : Msg) (myPeerId : Peer)
    (ns : List (Peer × NonceKeyPair)) : RState :=
  let st2 := { st with nonceRequest := none }
  if (ns.find? (fun e => e.1 == myPeerId)).isSome then
    { st2 with signRequest := some m }
  else
    st2

/-- The aggregation-and-publication tail of the share branch
(`resolvr-server/src/lib.rs:426-465`): remove `MessageSignRequest`,
combine the scanned shares, compute (and only log) the Schnorr
verification outcome, then publish through the nostr client; the two
`unwrap()` calls panic when `add_signature` or `send_event` fails. -/
def aggregateAndPublish (fr : FrostOracle) (st : RState) (m : Msg)
    (sess : List (Nat × (Point × Point))) (shares : List SigShare) :
    Except RError (RState × List Effect) :=
  let st2 := { st with signRequest := none }
  let sig := fr.combine m sess shares
  let _verification_outcome := fr.schnorrVerify m sig
  if fr.addSignatureOk m sig then
    if fr.sendOk m sig then
      .ok (st2, [Effect.publish m sig])
    else
      .error .panicked
  else
    .error .panicked

/-- Embeds `Resolvr::process_consensus_item` (`resolvr-server/src/lib.rs:322`).
An error result commits no writes: in the source both `bail!` sites and the
share-verification `Err` return before any insert of their branch, and per
the spec a failed consensus item is dropped with no state change (all
writes of one item commit atomically, §6, §7). -/
def process_consensus_item (cfg : Config) (fr : FrostOracle) (st : RState)
    (item : ConsensusItem) (peer : Peer) : Except RError (RState × List Effect) :=
  match item with
  | .nonce m kp =>
    if (st.nonces.lookup (m, peer)).isSome then
      .error (.duplicateNonce peer)
    else
      let st1 := insertNonce st m peer kp
      let ns := nonceScan st1 m
      if cfg.threshold ≤ ns.length then
        .ok (nonceQuorumActions st1 m cfg.myPeerId ns, [])
      else
        .ok (st1, [])
  | .frostSigShare m s =>
    if (st.shares.lookup (m, peer)).isSome then
      .error (.duplicateShare peer)
    else
      let sess := session_nonces st m
      if fr.verifyShare m sess (peer_id_to_scalar peer) s then
        let st1 := insertShare st m peer s
        let ss := shareScan st1 m
        if cfg.threshold ≤ ss.length then
          aggregateAndPublish fr st1 m sess (ss.map (fun e => e.2))
        else
          .ok (st1, [])
      else
        .error (.invalidShare peer)

/-- Embeds `Resolvr::consensus_proposal` (`resolvr-server/src/lib.rs:269`): if the
`MessageNonceRequest` slot is set, emit a `Nonce` item with a freshly
sampled nonce pair (the sampling is the `fresh` parameter); if the
`MessageSignRequest` slot is set, build the session from `get_nonces` and
emit this peer's signature share; the `expect` on the missing own nonce is
the `panicked` error. -/
def consensus_proposal (cfg : Config) (fr : FrostOracle) (st : RState)
    (fresh : NonceKeyPair) : Except RError (List ConsensusItem) :=
  let nonceItems : List ConsensusItem :=
    match st.nonceRequest with
    | some m => [ConsensusItem.nonce m fresh]
    | none => []
  match st.signRequest with
  | some m =>
    let sess := session_nonces st m
    let myIndex := peer_id_to_scalar cfg.myPeerId
    match (get_nonces st m).lookup myIndex with
    | none => .error .panicked
    | some myNonce =>
      .ok (nonceItems ++ [ConsensusItem.frostSigShare m (fr.sign m sess myIndex myNonce)])
  | none => .ok nonceItems

/-- The error taxonomy of the intake API in the spec (§7); `busySigner` is
declared so the intake claim is statable against the code. -/
inductive ApiError where
  | busySigner
deriving DecidableEq, Repr

/-- The `sign_event` endpoint body after `check_auth`
(`resolvr-server/src/lib.rs:516-525`): unconditionally write the
`MessageNonceRequest` slot and return success. Modelled from the spec for
the store write: `insert_new_entry` lives in `fedimint-core` (outside the
sources present), modelled as a plain transactional key-value write per the
persistence contract (§6); the endpoint itself has no occupied-slot check
and no error path besides authentication. -/
def sign_event (st : RState) (m : Msg) : Except ApiError RState :=
  .ok { st with nonceRequest := some m }

/-- States reachable by the sequential apply path from a fresh replica:
intake calls and successfully processed consensus items (a failed item
commits nothing, so it does not change the state). -/
inductive Reachable (cfg : Config) (fr : FrostOracle) : RState → Prop where
  | init : Reachable cfg fr RState.init
  | sign {st st' : RState} {m : Msg} :
      Reachable cfg fr st → sign_event st m = .ok st' → Reachable cfg fr st'
  | step {st st' : RState} {item : ConsensusItem} {p : Peer} {effs : List Effect} :
      Reachable cfg fr st →
      process_consensus_item cfg fr st item p = .ok (st', effs) →
      Reachable cfg fr st'

/-- An all-accepting, all-succeeding oracle for concrete evaluations. -/
def trivOracle : FrostOracle :=
  { verifyShare := fun _ _ _ _ => true
    combine := fun _ _ _ => 0
    schnorrVerify := fun _ _ => true
    sign := fun _ _ _ _ => 0
    addSignatureOk := fun _ _ => true
    sendOk := fun _ _ => true }

/-- Oracle whose final Schnorr verification of the combined signature
fails while every other library call succeeds. -/
def badVerifyOracle : FrostOracle :=
  { trivOracle with schnorrVerify := fun _ _ => false }

/-- Oracle whose relay publication call fails. -/
def badSendOracle : FrostOracle :=
  { trivOracle with sendOk := fun _ _ => false }

/-- Oracle rejecting every signature share. -/
def falseShareOracle : FrostOracle :=
  { trivOracle with verifyShare := fun _ _ _ _ => false }

/-- Threshold 1, this peer is peer 0. -/
def cfg1 : Config :=
  ⟨1, 0⟩

/-- Threshold 2, this peer is peer 0. -/
def cfg2 : Config :=
  ⟨2, 0⟩

/-- A store whose pending-request slot holds message 1. -/
def stPending1 : RState :=
  ⟨[], [], some 1, none⟩

/-- A store whose pending-request slot holds message 2. -/
def stPending2 : RState :=
  ⟨[], [], some 2, none⟩

/-- A store where peer 0 (this peer) already has a NonceEntry for the
pending message 5. -/
def stOwnNonce : RState :=
  ⟨[((5, 0), ⟨1, 1⟩)], [], some 5, none⟩

/-- The store after one nonce item for message 7 from peer 0 was
processed with threshold 2 from a fresh replica. -/
def stN1 : RState :=
  ⟨[((7, 0), ⟨1, 1⟩)], [], none, none⟩

/-- The store after a second nonce item (peer 1) for message 7: the nonce
quorum fired and this peer (0) is among the contributors. -/
def stN2 : RState :=
  ⟨[((7, 0), ⟨1, 1⟩), ((7, 1), ⟨2, 2⟩)], [], none, some 7⟩

/-- The store after a third nonce item (peer 2) for message 7 was also
accepted: three NonceEntries for a threshold of 2. -/
def stN3 : RState :=
  ⟨[((7, 0), ⟨1, 1⟩), ((7, 1), ⟨2, 2⟩), ((7, 2), ⟨3, 3⟩)], [], none, some 7⟩

/-- The store after one accepted share for message 7 from peer 1
(threshold 1: aggregation and publication already ran once). -/
def stOneShare : RState :=
  ⟨[], [((7, 1), 5)], none, none⟩

/-- The store after a second accepted share (peer 2) for message 7. -/
def stTwoShares : RState :=
  ⟨[], [((7, 1), 5), ((7, 2), 6)], none, none⟩

/-- C5, claim as stated is false: with a request already pending (message 1),
submitting message 2 succeeds (it does not fail with `BusySigner`) and the
previously pending request is replaced. -/
theorem C5_counterexample :
    stPending1.nonceRequest = some 1 ∧
    sign_event stPending1 2 = .ok ⟨[], [], some 2, none⟩ ∧
    (∀ e : ApiError, sign_event stPending1 2 ≠ .error e) := by
  refine ⟨rfl, rfl, ?_⟩
  intro e h
  simp [sign_event] at h

/-- C5 amended: the intake records the submitted message unconditionally,
overwriting any pending request, and always returns success. -/
theorem C5_amended_intake_unconditional (st : RState) (m : Msg) :
    sign_event st m = .ok { st with nonceRequest := some m } :=
  rfl

/-- C6, claim as stated is false: pending request holds message 2, a nonce
quorum (threshold 1) for the different message 1 is reached, and the
pending slot is cleared anyway. -/
theorem C6_counterexample :
    stPending2.nonceRequest = some 2 ∧ (2 : Msg) ≠ 1 ∧
    process_consensus_item cfg1 trivOracle stPending2 (.nonce 1 ⟨1, 1⟩) 1 =
      .ok (⟨[((1, 1), ⟨1, 1⟩)], [], none, none⟩, []) := by
  refine ⟨rfl, by decide, rfl⟩

/-- C6 amended: whenever processing a NonceProposal reaches the nonce
quorum for its message, the pending-request slot is cleared
unconditionally, whatever message it holds. -/
theorem C6_amended_clear_unconditional (cfg : Config) (fr : FrostOracle) (st : RState)
    (m : Msg) (p : Peer) (kp : NonceKeyPair)
    (hdup : (st.nonces.lookup (m, p)).isSome = false)
    (hq : cfg.threshold ≤ (nonceScan (insertNonce st m p kp) m).length) :
    ∃ st', process_consensus_item cfg fr st (.nonce m kp) p = .ok (st', []) ∧
      st'.nonceRequest = none := by
  refine ⟨nonceQuorumActions (insertNonce st m p kp) m cfg.myPeerId
    (nonceScan (insertNonce st m p kp) m), ?_, ?_⟩
  · simp [process_consensus_item, hdup, hq]
  · unfold nonceQuorumActions
    split <;> rfl

/-- Witness for the C6 amended theorem at a concrete input. -/
theorem C6_amended_witness :
    ((stPending2.nonces.lookup (1, 1)).isSome = false ∧
      cfg1.threshold ≤ (nonceScan (insertNonce stPending2 1 1 ⟨1, 1⟩) 1).length) ∧
    ∃ st', process_consensus_item cfg1 trivOracle stPending2 (.nonce 1 ⟨1, 1⟩) 1 =
      .ok (st', []) ∧ st'.nonceRequest = none :=
  ⟨⟨rfl, by decide⟩,
    C6_amended_clear_unconditional cfg1 trivOracle stPending2 1 1 ⟨1, 1⟩ rfl (by decide)⟩

/-- C7, claim as stated is false: peer 0's nonce for the pending message 5
is already recorded, yet the proposal generator still emits a fresh
NonceProposal for it. -/
theorem C7_counterexample :
    (stOwnNonce.nonces.lookup (5, cfg2.myPeerId)).isSome = true ∧
    consensus_proposal cfg2 trivOracle stOwnNonce ⟨2, 2⟩ =
      .ok [ConsensusItem.nonce 5 ⟨2, 2⟩] :=
  ⟨rfl, rfl⟩

/-- C7 amended: with no signing job in flight, the generator emits a
NonceProposal exactly when the pending slot is set, regardless of any
NonceEntry this peer already recorded. -/
theorem C7_amended_proposal_iff_pending (cfg : Config) (fr : FrostOracle) (st : RState)
    (fresh : NonceKeyPair) (hsr : st.signRequest = none) :
    consensus_proposal cfg fr st fresh =
      .ok (match st.nonceRequest with
        | some m => [ConsensusItem.nonce m fresh]
        | none => []) := by
  unfold consensus_proposal
  rw [hsr]

/-- Witness for the C7 amended theorem at a concrete input. -/
theorem C7_amended_witness :
    stOwnNonce.signRequest = none ∧
    consensus_proposal cfg2 trivOracle stOwnNonce ⟨2, 2⟩ =
      .ok (match stOwnNonce.nonceRequest with
        | some m => [ConsensusItem.nonce m ⟨2, 2⟩]
        | none => []) :=
  ⟨rfl, C7_amended_proposal_iff_pending cfg2 trivOracle stOwnNonce ⟨2, 2⟩ rfl⟩

/-- C1: the wire encoding of a nonce proposal is exactly the 64-byte
serialization of the two SECRET nonce scalars; the module's own decoder
recovers the secret halves from the wire bytes, and the decoded full
keypair (secret halves included) is inserted into the shared store when
the proposal is processed. -/
theorem C1_secret_nonce_on_wire :
    ResolvrNonceKeyPair.consensus_encode ⟨1, 2⟩ = scalarToBytes 1 ++ scalarToBytes 2 ∧
    ResolvrNonceKeyPair.consensus_decode (ResolvrNonceKeyPair.consensus_encode ⟨1, 2⟩) =
      some ⟨1, 2⟩ ∧
    process_consensus_item cfg2 trivOracle RState.init (.nonce 7 ⟨1, 2⟩) 1 =
      .ok (⟨[((7, 1), ⟨1, 2⟩)], [], none, none⟩, []) ∧
    (RState.mk [((7, 1), ⟨1, 2⟩)] [] none none).nonces.lookup (7, 1) = some ⟨1, 2⟩ := by
  refine ⟨rfl, by decide, rfl, rfl⟩

/-- C3: with threshold 1 a single accepted share triggers aggregation; the
Schnorr verification of the combined signature fails, yet the artifact is
still published; and when the publish call fails the process panics. -/
theorem C3_publish_ignores_verification :
    (process_consensus_item cfg1 badVerifyOracle RState.init (.frostSigShare 7 5) 1 =
        .ok (⟨[], [((7, 1), 5)], none, none⟩, [Effect.publish 7 0]) ∧
      badVerifyOracle.schnorrVerify 7 0 = false) ∧
    process_consensus_item cfg1 badSendOracle RState.init (.frostSigShare 7 5) 1 =
      .error .panicked :=
  ⟨⟨rfl, rfl⟩, rfl⟩

/-- C4, claim as stated is false: with threshold 1, a first valid share for
message 7 triggers aggregation and publication, and a second valid share
for the same message triggers aggregation and publication again. -/
theorem C4_counterexample :
    process_consensus_item cfg1 trivOracle RState.init (.frostSigShare 7 5) 1 =
      .ok (stOneShare, [Effect.publish 7 0]) ∧
    process_consensus_item cfg1 trivOracle stOneShare (.frostSigShare 7 6) 2 =
      .ok (stTwoShares, [Effect.publish 7 0]) :=
  ⟨rfl, rfl⟩

/-- C10: a non-duplicate share that fails share-verification is rejected
with an error naming the origin peer; the error result commits no write,
so no ShareEntry is inserted and no aggregation is reached. -/
theorem C10_invalid_share_rejected (cfg : Config) (fr : FrostOracle) (st : RState)
    (m : Msg) (s : SigShare) (p : Peer)
    (hdup : (st.shares.lookup (m, p)).isSome = false)
    (hver : fr.verifyShare m (session_nonces st m) (peer_id_to_scalar p) s = false) :
    process_consensus_item cfg fr st (.frostSigShare m s) p = .error (.invalidShare p) := by
  simp [process_consensus_item, hdup, hver]

/-- Witness for C10 at a concrete input. -/
theorem C10_witness :
    ((RState.init.shares.lookup (7, 1)).isSome = false ∧
      falseShareOracle.verifyShare 7 (session_nonces RState.init 7)
        (peer_id_to_scalar 1) 5 = false) ∧
    process_consensus_item cfg1 falseShareOracle RState.init (.frostSigShare 7 5) 1 =
      .error (.invalidShare 1) :=
  ⟨⟨rfl, rfl⟩, C10_invalid_share_rejected cfg1 falseShareOracle RState.init 7 5 1 rfl rfl⟩

/-- C4 amended: every processing of a valid (non-duplicate, verifying)
ShareProposal that leaves the share count at or above the threshold runs
aggregation and publication again; publication is not guarded to happen
once per message. -/
theorem C4_amended_republish (cfg : Config) (fr : FrostOracle) (st : RState)
    (m : Msg) (s : SigShare) (p : Peer)
    (hdup : (st.shares.lookup (m, p)).isSome = false)
    (hver : fr.verifyShare m (session_nonces st m) (peer_id_to_scalar p) s = true)
    (hq : cfg.threshold ≤ (shareScan (insertShare st m p s) m).length)
    (hadd : fr.addSignatureOk m (fr.combine m (session_nonces st m)
      ((shareScan (insertShare st m p s) m).map (fun e => e.2))) = true)
    (hsend : fr.sendOk m (fr.combine m (session_nonces st m)
      ((shareScan (insertShare st m p s) m).map (fun e => e.2))) = true) :
    process_consensus_item cfg fr st (.frostSigShare m s) p =
      .ok ({ insertShare st m p s with signRequest := none },
        [Effect.publish m (fr.combine m (session_nonces st m)
          ((shareScan (insertShare st m p s) m).map (fun e => e.2)))]) := by
  simp [process_consensus_item, aggregateAndPublish, hdup, hver, hq, hadd, hsend]

/-- Witness for the C4 amended theorem: the second share for message 7
publishes again. -/
theorem C4_amended_witness :
    ((stOneShare.shares.lookup (7, 2)).isSome = false ∧
      cfg1.threshold ≤ (shareScan (insertShare stOneShare 7 2 6) 7).length) ∧
    process_consensus_item cfg1 trivOracle stOneShare (.frostSigShare 7 6) 2 =
      .ok ({ insertShare stOneShare 7 2 6 with signRequest := none },
        [Effect.publish 7 (trivOracle.combine 7 (session_nonces stOneShare 7)
          ((shareScan (insertShare stOneShare 7 2 6) 7).map (fun e => e.2)))]) :=
  ⟨⟨rfl, by decide⟩,
    C4_amended_republish cfg1 trivOracle stOneShare 7 6 2 rfl rfl (by decide) rfl rfl⟩

/-- C8: both quorum transitions use the comparison threshold ≤ count (the
source's `>=`): once a non-duplicate nonce is inserted, the quorum actions
run when the new count is at least t and the state is exactly the inserted
store otherwise; once a non-duplicate verifying share is inserted, the
aggregator runs when the new count is at least t and the state is exactly
the inserted store otherwise. -/
theorem C8_threshold_geq (cfg : Config) (fr : FrostOracle) (st : RState)
    (m : Msg) (kp : NonceKeyPair) (s : SigShare) (p : Peer)
    (hn : (st.nonces.lookup (m, p)).isSome = false)
    (hs : (st.shares.lookup (m, p)).isSome = false)
    (hv : fr.verifyShare m (session_nonces st m) (peer_id_to_scalar p) s = true) :
    (cfg.threshold ≤ (nonceScan (insertNonce st m p kp) m).length →
      process_consensus_item cfg fr st (.nonce m kp) p =
        .ok (nonceQuorumActions (insertNonce st m p kp) m cfg.myPeerId
          (nonceScan (insertNonce st m p kp) m), [])) ∧
    ((nonceScan (insertNonce st m p kp) m).length < cfg.threshold →
      process_consensus_item cfg fr st (.nonce m kp) p =
        .ok (insertNonce st m p kp, [])) ∧
    (cfg.threshold ≤ (shareScan (insertShare st m p s) m).length →
      process_consensus_item cfg fr st (.frostSigShare m s) p =
        aggregateAndPublish fr (insertShare st m p s) m (session_nonces st m)
          ((shareScan (insertShare st m p s) m).map (fun e => e.2))) ∧
    ((shareScan (insertShare st m p s) m).length < cfg.threshold →
      process_consensus_item cfg fr st (.frostSigShare m s) p =
        .ok (insertShare st m p s, [])) := by
  refine ⟨fun hq => ?_, fun hq => ?_, fun hq => ?_, fun hq => ?_⟩
  · simp [process_consensus_item, hn, hq]
  · simp [process_consensus_item, hn, Nat.not_le.mpr hq]
  · simp [process_consensus_item, hs, hv, hq]
  · simp [process_consensus_item, hs, hv, Nat.not_le.mpr hq]

/-- Witness for C8 at a concrete input (threshold 2: the first nonce and
the first share each stay below quorum; the conclusions evaluate). -/
theorem C8_threshold_geq_witness :
    ((RState.init.nonces.lookup (7, 0)).isSome = false ∧
      (RState.init.shares.lookup (7, 0)).isSome = false ∧
      trivOracle.verifyShare 7 (session_nonces RState.init 7)
        (peer_id_to_scalar 0) 5 = true) ∧
    ((nonceScan (insertNonce RState.init 7 0 ⟨1, 1⟩) 7).length < cfg2.threshold →
      process_consensus_item cfg2 trivOracle RState.init (.nonce 7 ⟨1, 1⟩) 0 =
        .ok (insertNonce RState.init 7 0 ⟨1, 1⟩, [])) ∧
    ((shareScan (insertShare RState.init 7 0 5) 7).length < cfg2.threshold →
      process_consensus_item cfg2 trivOracle RState.init (.frostSigShare 7 5) 0 =
        .ok (insertShare RState.init 7 0 5, [])) :=
  ⟨⟨rfl, rfl, rfl⟩,
    (C8_threshold_geq cfg2 trivOracle RState.init 7 ⟨1, 1⟩ 5 0 rfl rfl rfl).2.1,
    (C8_threshold_geq cfg2 trivOracle RState.init 7 ⟨1, 1⟩ 5 0 rfl rfl rfl).2.2.2⟩

/-- A lookup in an association list succeeds exactly when the key occurs
among the stored keys. -/
theorem lookup_isSome_iff {β : Type} (l : List ((Msg × Peer) × β)) (k : Msg × Peer) :
    (l.lookup k).isSome = true ↔ k ∈ l.map Prod.fst := by
  induction l with
  | nil => simp [List.lookup]
  | cons e rest ih =>
    obtain ⟨a, b⟩ := e
    by_cases hk : k = a
    · subst hk
      simp [List.lookup]
    · have hbeq : (k == a) = false := beq_eq_false_iff_ne.mpr hk
      simp [List.lookup, hbeq, hk, ih]

/-- Appending a fresh key preserves key distinctness. -/
theorem nodup_keys_append {β : Type} (l : List ((Msg × Peer) × β)) (k : Msg × Peer) (v : β)
    (hnd : (l.map Prod.fst).Nodup) (hni : (l.lookup k).isSome = false) :
    ((l ++ [(k, v)]).map Prod.fst).Nodup := by
  have hk : k ∉ l.map Prod.fst := by
    intro hmem
    rw [← lookup_isSome_iff] at hmem
    rw [hni] at hmem
    cases hmem
  simp [List.nodup_append, hnd, hk]

/-- The nonce-quorum actions only touch the two singleton request slots. -/
theorem nonceQuorumActions_tables (st : RState) (m : Msg) (my : Peer)
    (ns : List (Peer × NonceKeyPair)) :
    (nonceQuorumActions st m my ns).nonces = st.nonces ∧
    (nonceQuorumActions st m my ns).shares = st.shares := by
  unfold nonceQuorumActions
  split <;> exact ⟨rfl, rfl⟩

/-- When aggregation and publication succeed, the resulting state is the
input state with the sign-request slot cleared. -/
theorem aggregateAndPublish_ok_state (fr : FrostOracle) (st : RState) (m : Msg)
    (sess : List (Nat × (Point × Point))) (shs : List SigShare) (st' : RState)
    (effs : List Effect)
    (h : aggregateAndPublish fr st m sess shs = .ok (st', effs)) :
    st' = { st with signRequest := none } := by
  by_cases h1 : fr.addSignatureOk m (fr.combine m sess shs) = true
  · by_cases h2 : fr.sendOk m (fr.combine m sess shs) = true
    · have heq : aggregateAndPublish fr st m sess shs =
          .ok ({ st with signRequest := none },
            [Effect.publish m (fr.combine m sess shs)]) := by
        simp [aggregateAndPublish, h1, h2]
      rw [heq] at h
      simp only [Except.ok.injEq, Prod.mk.injEq] at h
      exact h.1.symm
    · have heq : aggregateAndPublish fr st m sess shs = .error .panicked := by
        simp [aggregateAndPublish, h1, h2]
      rw [heq] at h
      cases h
  · have heq : aggregateAndPublish fr st m sess shs = .error .panicked := by
      simp [aggregateAndPublish, h1]
    rw [heq] at h
    cases h

/-- A successfully processed consensus item appends exactly one entry to
the table of its kind (after the duplicate check passed) and leaves the
other table unchanged. -/
theorem process_ok_tables (cfg : Config) (fr : FrostOracle) (st : RState)
    (item : ConsensusItem) (p : Peer) (st' : RState) (effs : List Effect)
    (h : process_consensus_item cfg fr st item p = .ok (st', effs)) :
    (∃ m kp, item = .nonce m kp ∧ (st.nonces.lookup (m, p)).isSome = false ∧
      st'.nonces = st.nonces ++ [((m, p), kp)] ∧ st'.shares = st.shares) ∨
    (∃ m s, item = .frostSigShare m s ∧ (st.shares.lookup (m, p)).isSome = false ∧
      st'.shares = st.shares ++ [((m, p), s)] ∧ st'.nonces = st.nonces) := by
  cases item with
  | nonce m kp =>
    left
    refine ⟨m, kp, rfl, ?_⟩
    by_cases hd : (st.nonces.lookup (m, p)).isSome = true
    · have heq : process_consensus_item cfg fr st (.nonce m kp) p =
          .error (.duplicateNonce p) := by
        simp [process_consensus_item, hd]
      rw [heq] at h
      cases h
    · rw [Bool.not_eq_true] at hd
      refine ⟨hd, ?_⟩
      by_cases hq : cfg.threshold ≤ (nonceScan (insertNonce st m p kp) m).length
      · have heq : process_consensus_item cfg fr st (.nonce m kp) p =
            .ok (nonceQuorumActions (insertNonce st m p kp) m cfg.myPeerId
              (nonceScan (insertNonce st m p kp) m), []) := by
          simp [process_consensus_item, hd, hq]
        rw [heq] at h
        simp only [Except.ok.injEq, Prod.mk.injEq] at h
        have ht := nonceQuorumActions_tables (insertNonce st m p kp) m cfg.myPeerId
          (nonceScan (insertNonce st m p kp) m)
        rw [← h.1]
        exact ⟨ht.1, ht.2⟩
      · have heq : process_consensus_item cfg fr st (.nonce m kp) p =
            .ok (insertNonce st m p kp, []) := by
          simp [process_consensus_item, hd, hq]
        rw [heq] at h
        simp only [Except.ok.injEq, Prod.mk.injEq] at h
        rw [← h.1]
        exact ⟨rfl, rfl⟩
  | frostSigShare m s =>
    right
    refine ⟨m, s, rfl, ?_⟩
    by_cases hd : (st.shares.lookup (m, p)).isSome = true
    · have heq : process_consensus_item cfg fr st (.frostSigShare m s) p =
          .error (.duplicateShare p) := by
        simp [process_consensus_item, hd]
      rw [heq] at h
      cases h
    · rw [Bool.not_eq_true] at hd
      refine ⟨hd, ?_⟩
      by_cases hv : fr.verifyShare m (session_nonces st m) (peer_id_to_scalar p) s = true
      · by_cases hq : cfg.threshold ≤ (shareScan (insertShare st m p s) m).length
        · have heq : process_consensus_item cfg fr st (.frostSigShare m s) p =
              aggregateAndPublish fr (insertShare st m p s) m (session_nonces st m)
                ((shareScan (insertShare st m p s) m).map (fun e => e.2)) := by
            simp [process_consensus_item, hd, hv, hq]
          rw [heq] at h
          have hst := aggregateAndPublish_ok_state _ _ _ _ _ _ _ h
          rw [hst]
          exact ⟨rfl, rfl⟩
        · have heq : process_consensus_item cfg fr st (.frostSigShare m s) p =
              .ok (insertShare st m p s, []) := by
            simp [process_consensus_item, hd, hv, hq]
          rw [heq] at h
          simp only [Except.ok.injEq, Prod.mk.injEq] at h
          rw [← h.1]
          exact ⟨rfl, rfl⟩
      · have heq : process_consensus_item cfg fr st (.frostSigShare m s) p =
            .error (.invalidShare p) := by
          simp [process_consensus_item, hd, hv]
        rw [heq] at h
        cases h

/-- Every state reachable through the sequential apply path has distinct
keys in both tables. -/
theorem reachable_nodup_keys (cfg : Config) (fr : FrostOracle) (st : RState)
    (h : Reachable cfg fr st) :
    (st.nonces.map Prod.fst).Nodup ∧ (st.shares.map Prod.fst).Nodup := by
  induction h with
  | init => exact ⟨List.nodup_nil, List.nodup_nil⟩
  | sign hr hs ih =>
    rename_i st₀ st₁ m
    simp only [sign_event, Except.ok.injEq] at hs
    rw [← hs]
    exact ih
  | step hr hp ih =>
    rcases process_ok_tables _ _ _ _ _ _ _ hp with
      ⟨m, kp, -, hd, hn, hsh⟩ | ⟨m, s, -, hd, hsh, hn⟩
    · rw [hn, hsh]
      exact ⟨nodup_keys_append _ _ _ ih.1 hd, ih.2⟩
    · rw [hn, hsh]
      exact ⟨ih.1, nodup_keys_append _ _ _ ih.2 hd⟩

/-- C9: in every reachable state both tables have at most one entry per
(message, peer) key, and processing a proposal whose key is already
present fails with the corresponding duplicate error (committing
nothing). -/
theorem C9_at_most_one (cfg : Config) (fr : FrostOracle) (st : RState)
    (h : Reachable cfg fr st) :
    ((st.nonces.map Prod.fst).Nodup ∧ (st.shares.map Prod.fst).Nodup) ∧
    (∀ m p kp, (st.nonces.lookup (m, p)).isSome = true →
      process_consensus_item cfg fr st (.nonce m kp) p = .error (.duplicateNonce p)) ∧
    (∀ m p s, (st.shares.lookup (m, p)).isSome = true →
      process_consensus_item cfg fr st (.frostSigShare m s) p =
        .error (.duplicateShare p)) := by
  refine ⟨reachable_nodup_keys cfg fr st h, ?_, ?_⟩
  · intro m p kp hd
    simp [process_consensus_item, hd]
  · intro m p s hd
    simp [process_consensus_item, hd]

/-- Witness for C9 at a concrete reachable state (one stored nonce): the
nodup invariant evaluates and the duplicate rejection is exercised below
by instantiating the quantifiers. -/
theorem C9_witness :
    ((stN1.nonces.map Prod.fst).Nodup ∧ (stN1.shares.map Prod.fst).Nodup) ∧
    process_consensus_item cfg2 trivOracle stN1 (.nonce 7 ⟨9, 9⟩) 0 =
      .error (.duplicateNonce 0) := by
  have hr : Reachable cfg2 trivOracle stN1 :=
    Reachable.step Reachable.init
      (rfl : process_consensus_item cfg2 trivOracle RState.init (.nonce 7 ⟨1, 1⟩) 0 =
        .ok (stN1, []))
  have hc := C9_at_most_one cfg2 trivOracle stN1 hr
  exact ⟨hc.1, hc.2.1 7 0 ⟨9, 9⟩ rfl⟩

/-- Inserting into a sorted list is a permutation of consing. -/
theorem insertSortedBy_perm {α : Type} (key : α → Nat) (a : α) (l : List α) :
    List.Perm (insertSortedBy key a l) (a :: l) := by
  induction l with
  | nil => exact List.Perm.refl _
  | cons b rest ih =>
    unfold insertSortedBy
    split
    · exact List.Perm.refl _
    · exact (ih.cons b).trans (List.Perm.swap a b rest)

/-- Insertion sort permutes its input. -/
theorem sortBy_perm {α : Type} (key : α → Nat) (l : List α) :
    List.Perm (sortBy key l) l := by
  induction l with
  | nil => exact List.Perm.refl _
  | cons a rest ih =>
    exact (insertSortedBy_perm key a (sortBy key rest)).trans (ih.cons a)

/-- Elements of a map insertion come from the inserted pair or the map. -/
theorem btreeInsert_mem {α : Type} {k : Nat} {v : α} {l : List (Nat × α)} {x : Nat × α}
    (h : x ∈ btreeInsert k v l) : x = (k, v) ∨ x ∈ l := by
  induction l with
  | nil =>
    simp only [btreeInsert, List.mem_singleton] at h
    exact Or.inl h
  | cons e rest ih =>
    unfold btreeInsert at h
    split at h
    · rcases List.mem_cons.mp h with h | h
      · exact Or.inl h
      · exact Or.inr h
    · split at h
      · rcases List.mem_cons.mp h with h | h
        · exact Or.inl h
        · exact Or.inr (List.mem_cons_of_mem e h)
      · rcases List.mem_cons.mp h with h | h
        · exact Or.inr (h ▸ List.mem_cons_self e rest)
        · rcases ih h with h | h
          · exact Or.inl h
          · exact Or.inr (List.mem_cons_of_mem e h)

/-- Map insertion keeps the association list sorted by key. -/
theorem btreeInsert_sorted {α : Type} (k : Nat) (v : α) {l : List (Nat × α)}
    (h : l.Pairwise (fun a b => a.1 < b.1)) :
    (btreeInsert k v l).Pairwise (fun a b => a.1 < b.1) := by
  induction l with
  | nil => simp [btreeInsert]
  | cons e rest ih =>
    rcases List.pairwise_cons.mp h with ⟨he, hrest⟩
    unfold btreeInsert
    split
    next hlt =>
      refine List.pairwise_cons.mpr ⟨?_, h⟩
      intro x hx
      rcases List.mem_cons.mp hx with rfl | hx
      · exact hlt
      · exact Nat.lt_trans hlt (he x hx)
    next hnlt =>
      split
      next heq =>
        refine List.pairwise_cons.mpr ⟨?_, hrest⟩
        intro x hx
        have hx1 := he x hx
        show k < x.1
        omega
      next hneq =>
        refine List.pairwise_cons.mpr ⟨?_, ih hrest⟩
        intro x hx
        rcases btreeInsert_mem hx with rfl | hx
        · show e.1 < k
          omega
        · exact he x hx

/-- Inserting a fresh key into the map is a permutation of consing. -/
theorem btreeInsert_perm_fresh {α : Type} (k : Nat) (v : α) {l : List (Nat × α)}
    (h : k ∉ l.map Prod.fst) :
    List.Perm (btreeInsert k v l) ((k, v) :: l) := by
  induction l with
  | nil => exact List.Perm.refl _
  | cons e rest ih =>
    have hk : k ≠ e.1 ∧ k ∉ rest.map Prod.fst := by
      simpa using h
    unfold btreeInsert
    split
    · exact List.Perm.refl _
    · split
      next heq => exact absurd heq hk.1
      next hneq => exact ((ih hk.2).cons e).trans (List.Perm.swap (k, v) e rest)

/-- Folding map insertions of pairwise-fresh keys over an accumulator is a
permutation of appending. -/
theorem foldl_btreeInsert_perm {α : Type} (es : List (Nat × α)) (acc : List (Nat × α))
    (h : (acc.map Prod.fst ++ es.map Prod.fst).Nodup) :
    List.Perm (es.foldl (fun a e => btreeInsert e.1 e.2 a) acc) (acc ++ es) := by
  induction es generalizing acc with
  | nil => simp
  | cons e rest ih =>
    simp only [List.map_cons] at h
    have hdisj := List.disjoint_of_nodup_append h
    have hfresh : e.1 ∉ acc.map Prod.fst := fun hmem => hdisj hmem (by simp)
    have hperm : List.Perm (btreeInsert e.1 e.2 acc) ((e.1, e.2) :: acc) :=
      btreeInsert_perm_fresh e.1 e.2 hfresh
    have hmid : List.Perm (acc.map Prod.fst ++ e.1 :: rest.map Prod.fst)
        (e.1 :: (acc.map Prod.fst ++ rest.map Prod.fst)) := List.perm_middle
    have hkeys : ((btreeInsert e.1 e.2 acc).map Prod.fst ++ rest.map Prod.fst).Nodup := by
      refine ((hperm.map Prod.fst).append_right (rest.map Prod.fst)).nodup_iff.mpr ?_
      exact hmid.nodup_iff.mp h
    have hstep : (e :: rest).foldl (fun a x => btreeInsert x.1 x.2 a) acc
        = rest.foldl (fun a x => btreeInsert x.1 x.2 a) (btreeInsert e.1 e.2 acc) := rfl
    rw [hstep]
    refine (ih (btreeInsert e.1 e.2 acc) hkeys).trans ?_
    refine (hperm.append_right rest).trans ?_
    rw [Prod.mk.eta]
    exact List.perm_middle.symm


/-- Folding map insertions preserves sortedness by key. -/
theorem foldl_btreeInsert_sorted {α : Type} (es : List (Nat × α)) (acc : List (Nat × α))
    (h : acc.Pairwise (fun a b => a.1 < b.1)) :
    (es.foldl (fun a e => btreeInsert e.1 e.2 a) acc).Pairwise (fun a b => a.1 < b.1) := by
  induction es generalizing acc with
  | nil => exact h
  | cons e rest ih => exact ih _ (btreeInsert_sorted e.1 e.2 h)

/-- Rewrites the `get_nonces` fold as a fold over scalar-keyed pairs. -/
theorem get_nonces_eq_foldl_map (st : RState) (m : Msg) :
    get_nonces st m =
      ((nonceScan st m).map (fun e => (peer_id_to_scalar e.1, e.2))).foldl
        (fun a e => btreeInsert e.1 e.2 a) [] := by
  rw [List.foldl_map]
  rfl

/-- The prefix scan for a message permutes the filtered table entries. -/
theorem nonceScan_perm (st : RState) (m : Msg) :
    List.Perm (nonceScan st m)
      ((st.nonces.filter (fun e => e.1.1 == m)).map (fun e => (e.1.2, e.2))) :=
  sortBy_perm _ _

/-- With distinct table keys, the peers contributing to one message are
distinct. -/
theorem filter_peers_nodup (st : RState) (m : Msg)
    (hnd : (st.nonces.map Prod.fst).Nodup) :
    ((st.nonces.filter (fun e => e.1.1 == m)).map (fun e => e.1.2)).Nodup := by
  have hsub : List.Sublist (st.nonces.filter (fun e => e.1.1 == m)) st.nonces :=
    List.filter_sublist st.nonces
  have hfl : ((st.nonces.filter (fun e => e.1.1 == m)).map Prod.fst).Nodup :=
    (hsub.map Prod.fst).nodup hnd
  have hmap : (st.nonces.filter (fun e => e.1.1 == m)).map (fun e => e.1.2)
      = ((st.nonces.filter (fun e => e.1.1 == m)).map Prod.fst).map Prod.snd := by
    simp [List.map_map]
  rw [hmap]
  refine List.Nodup.map_on ?_ hfl
  intro x hx y hy hxy
  obtain ⟨ex, hex, rfl⟩ := List.mem_map.mp hx
  obtain ⟨ey, hey, rfl⟩ := List.mem_map.mp hy
  have hx1 : ex.1.1 = m := by
    have := (List.mem_filter.mp hex).2
    simpa using this
  have hy1 : ey.1.1 = m := by
    have := (List.mem_filter.mp hey).2
    simpa using this
  have h1 : ex.1.1 = ey.1.1 := by rw [hx1, hy1]
  calc ex.1 = (ex.1.1, ex.1.2) := rfl
    _ = (ey.1.1, ey.1.2) := by rw [h1, hxy]
    _ = ey.1 := rfl

/-- The scalar keys fed into the session map are distinct whenever the
table keys are. -/
theorem scan_scalar_keys_nodup (st : RState) (m : Msg)
    (hnd : (st.nonces.map Prod.fst).Nodup) :
    (((nonceScan st m).map (fun e => (peer_id_to_scalar e.1, e.2))).map Prod.fst).Nodup := by
  have h1 : ((nonceScan st m).map (fun e => (peer_id_to_scalar e.1, e.2))).map Prod.fst
      = ((nonceScan st m).map Prod.fst).map peer_id_to_scalar := by
    simp [List.map_map]
  rw [h1]
  refine List.Nodup.map (fun a b hab => by
    simpa [peer_id_to_scalar] using hab) ?_
  have hperm := (nonceScan_perm st m).map Prod.fst
  refine hperm.nodup_iff.mpr ?_
  have h2 : ((st.nonces.filter (fun e => e.1.1 == m)).map
        (fun e => (e.1.2, e.2))).map Prod.fst
      = (st.nonces.filter (fun e => e.1.1 == m)).map (fun e => e.1.2) := by
    simp [List.map_map]
  rw [h2]
  exact filter_peers_nodup st m hnd

/-- With distinct table keys, the session map permutes the scalar-keyed
scan entries. -/
theorem get_nonces_perm (st : RState) (m : Msg)
    (hnd : (st.nonces.map Prod.fst).Nodup) :
    List.Perm (get_nonces st m)
      ((nonceScan st m).map (fun e => (peer_id_to_scalar e.1, e.2))) := by
  rw [get_nonces_eq_foldl_map]
  have := foldl_btreeInsert_perm
    ((nonceScan st m).map (fun e => (peer_id_to_scalar e.1, e.2))) []
    (by simpa using scan_scalar_keys_nodup st m hnd)
  simpa using this

/-- The session map is sorted strictly by peer scalar. -/
theorem get_nonces_sorted (st : RState) (m : Msg) :
    (get_nonces st m).Pairwise (fun a b => a.1 < b.1) := by
  rw [get_nonces_eq_foldl_map]
  exact foldl_btreeInsert_sorted _ [] List.Pairwise.nil


/-- C2, claim as stated is false: with threshold 2, three nonce items for
message 7 are all accepted (the third is inserted and re-triggers the
quorum branch), the signing job is in flight, and the nonce map passed to
`start_sign_session` — at both call sites `session_nonces` — has size 3,
not exactly t = 2. -/
theorem C2_counterexample :
    process_consensus_item cfg2 trivOracle RState.init (.nonce 7 ⟨1, 1⟩) 0 =
      .ok (stN1, []) ∧
    process_consensus_item cfg2 trivOracle stN1 (.nonce 7 ⟨2, 2⟩) 1 =
      .ok (stN2, []) ∧
    process_consensus_item cfg2 trivOracle stN2 (.nonce 7 ⟨3, 3⟩) 2 =
      .ok (stN3, []) ∧
    stN3.signRequest = some 7 ∧
    (session_nonces stN3 7).length = 3 ∧
    cfg2.threshold = 2 :=
  ⟨rfl, rfl, rfl, rfl, rfl, rfl⟩

/-- C2 amended: the nonce list handed to `start_sign_session` is the whole
set of NonceEntries recorded for the message — strictly sorted by peer
scalar, with one entry per contributing peer — rather than the first t in
consensus order; its size is the number of recorded entries. -/
theorem C2_amended_session_list (st : RState) (m : Msg)
    (hnd : (st.nonces.map Prod.fst).Nodup) :
    (session_nonces st m).Pairwise (fun a b => a.1 < b.1) ∧
    (session_nonces st m).length = (st.nonces.filter (fun e => e.1.1 == m)).length ∧
    (∀ p kp, (peer_id_to_scalar p, kp) ∈ get_nonces st m ↔ ((m, p), kp) ∈ st.nonces) := by
  refine ⟨?_, ?_, ?_⟩
  · exact List.Pairwise.map _ (fun a b h => h) (get_nonces_sorted st m)
  · rw [session_nonces, List.length_map]
    rw [(get_nonces_perm st m hnd).length_eq]
    rw [List.length_map]
    rw [(nonceScan_perm st m).length_eq]
    rw [List.length_map]
  · intro p kp
    constructor
    · intro hmem
      have hmm := (get_nonces_perm st m hnd).mem_iff.mp hmem
      obtain ⟨e, he, heq⟩ := List.mem_map.mp hmm
      have hp : e.1 = p := by
        have := congrArg Prod.fst heq
        simpa [peer_id_to_scalar] using this
      have hkp : e.2 = kp := congrArg Prod.snd heq
      have hscan := (nonceScan_perm st m).mem_iff.mp he
      obtain ⟨y, hy, hye⟩ := List.mem_map.mp hscan
      have hy1 : y.1.1 = m := by
        have := (List.mem_filter.mp hy).2
        simpa using this
      have hymem : y ∈ st.nonces := (List.mem_filter.mp hy).1
      have hfin : y = ((m, p), kp) := by
        have h2 : y.1.2 = e.1 := congrArg Prod.fst hye
        have h3 : y.2 = e.2 := congrArg Prod.snd hye
        calc y = ((y.1.1, y.1.2), y.2) := rfl
          _ = ((m, p), kp) := by rw [hy1, h2, hp, h3, hkp]
      rw [← hfin]
      exact hymem
    · intro hmem
      refine (get_nonces_perm st m hnd).mem_iff.mpr ?_
      refine List.mem_map.mpr ⟨(p, kp), ?_, rfl⟩
      refine (nonceScan_perm st m).mem_iff.mpr ?_
      refine List.mem_map.mpr ⟨((m, p), kp), ?_, rfl⟩
      exact List.mem_filter.mpr ⟨hmem, by simp⟩

/-- Witness for the C2 amended theorem at the three-nonce state. -/
theorem C2_amended_witness :
    (stN3.nonces.map Prod.fst).Nodup ∧
    ((session_nonces stN3 7).Pairwise (fun a b => a.1 < b.1) ∧
      (session_nonces stN3 7).length =
        (stN3.nonces.filter (fun e => e.1.1 == 7)).length ∧
      ((peer_id_to_scalar 1, (⟨2, 2⟩ : NonceKeyPair)) ∈ get_nonces stN3 7 ↔
        ((7, 1), (⟨2, 2⟩ : NonceKeyPair)) ∈ stN3.nonces)) := by
  have h := C2_amended_session_list stN3 7 (by decide)
  exact ⟨by decide, h.1, h.2.1, h.2.2 1 ⟨2, 2⟩⟩

end Resolvr
